import Mathlib

/-!
Shallow embedding of `src/build/final_muon_analysis.py` (muon Bethe-Bloch
analysis over copper) together with theorems settling the specification
claims.  Python floats are modelled by real numbers; numpy `nan` results
and aborting numpy errors are modelled by `Option` with `none`; the
per-point `try`/`except` of the theory loop is modelled by an evaluator
returning `Except`.
-/

namespace MuonAnalysis

noncomputable section

/-! ## The Bethe-Bloch evaluator (source lines 14-66) -/

/-- Muon mass in MeV (source line 20). -/
def m_mu : ℝ := 105.66

/-- Electron mass in MeV (source line 21). -/
def m_e : ℝ := 0.511

/-- Atomic number of copper (source line 22). -/
def Z : ℝ := 29

/-- Atomic mass of copper (source line 23). -/
def A : ℝ := 63.5

/-- Density of copper in g per cubic cm (source line 24). -/
def rho : ℝ := 8.96

/-- Bethe-Bloch constant (source line 27). -/
def K : ℝ := 0.307075

/-- Plasma frequency of copper in MeV (source line 56). -/
def omega_p : ℝ := 28.8e-6

/-- Relativistic gamma factor, source line 30. -/
def gammaOf (E_MeV : ℝ) : ℝ := (E_MeV + m_mu) / m_mu

/-- Squared relativistic beta, source line 31. -/
def beta2Of (E_MeV : ℝ) : ℝ := 1 - 1 / (gammaOf E_MeV) ^ 2

/-- Relativistic beta, source line 32. -/
def betaOf (E_MeV : ℝ) : ℝ := Real.sqrt (beta2Of E_MeV)

/-- Maximum single-collision energy transfer, source line 39. -/
def TmaxOf (E_MeV : ℝ) : ℝ :=
  2 * m_e * beta2Of E_MeV * (gammaOf E_MeV) ^ 2 /
    (1 + 2 * gammaOf E_MeV * m_e / m_mu + (m_e / m_mu) ^ 2)

/-- Mean ionization potential converted to MeV, source line 42. -/
def I_MeVOf (I_eV : ℝ) : ℝ := I_eV * 1e-6

/-- The argument of the logarithm, source line 45. -/
def argOf (E_MeV I_eV : ℝ) : ℝ :=
  2 * m_e * beta2Of E_MeV * (gammaOf E_MeV) ^ 2 * TmaxOf E_MeV / (I_MeVOf I_eV) ^ 2

/-- The main Bethe-Bloch term, source line 49. -/
def bbTermOf (E_MeV I_eV : ℝ) : ℝ :=
  K * Z / A * rho * (1 / beta2Of E_MeV) * (0.5 * Real.log (argOf E_MeV I_eV) - beta2Of E_MeV)

/-- Density-effect correction, source lines 53-58. -/
def deltaOf (E_MeV I_eV : ℝ) : ℝ :=
  if 100 < E_MeV then
    max 0 (Real.log (betaOf E_MeV * gammaOf E_MeV) + Real.log (omega_p / I_MeVOf I_eV) - 0.5)
  else 0

/-- Shell correction, source lines 62-64. -/
def shellOf (E_MeV : ℝ) : ℝ :=
  if E_MeV < 100 then K * Z / A * rho * (1 / beta2Of E_MeV) * 0.1 * Real.sqrt (100 / E_MeV)
  else 0

/-- The Bethe-Bloch evaluator, source lines 14-66.  The `none` value models
the `np.nan` returned on the two guarded non-physical branches. -/
def bethe_bloch_muon (E_MeV : ℝ) (I_eV : ℝ) : Option ℝ :=
  if beta2Of E_MeV ≤ 0 ∨ 1 ≤ beta2Of E_MeV then none
  else if argOf E_MeV I_eV ≤ 0 then none
  else some (bbTermOf E_MeV I_eV - deltaOf E_MeV I_eV - shellOf E_MeV)

/-! ## Spec-side formulas for claim C1, written from the words of the spec -/

/-- Main term as the spec words it: K times (Z over A) times rho times
(1 over beta2) times (half log arg minus beta2). -/
def mainTermSpec (E_MeV I_eV : ℝ) : ℝ :=
  0.307075 * (29 / 63.5) * 8.96 * (1 / beta2Of E_MeV) *
    (0.5 * Real.log (argOf E_MeV I_eV) - beta2Of E_MeV)

/-- Density correction as the spec words it: zero for E at most 100 MeV,
otherwise the clamped plasma-frequency formula. -/
def deltaSpec (E_MeV I_eV : ℝ) : ℝ :=
  if E_MeV ≤ 100 then 0
  else max 0 (Real.log (betaOf E_MeV * gammaOf E_MeV) + Real.log (omega_p / I_MeVOf I_eV) - 0.5)

/-- Shell correction as the spec words it: zero for E at least 100 MeV,
otherwise the inverse square-root formula. -/
def shellSpec (E_MeV : ℝ) : ℝ :=
  if 100 ≤ E_MeV then 0
  else 0.307075 * (29 / 63.5) * 8.96 * (1 / beta2Of E_MeV) * 0.1 * Real.sqrt (100 / E_MeV)

end

/-! ## Helper lemmas for the evaluator -/

theorem bethe_bloch_muon_eq_none_iff (E I : ℝ) :
    bethe_bloch_muon E I = none ↔
      beta2Of E ≤ 0 ∨ 1 ≤ beta2Of E ∨ argOf E I ≤ 0 := by
  unfold bethe_bloch_muon
  split_ifs with h1 h2
  · simp only [true_iff]
    exact h1.imp id Or.inl
  · simp only [true_iff]
    exact Or.inr (Or.inr h2)
  · constructor
    · intro hx
      exact absurd hx (by simp)
    · intro hx
      push_neg at h1
      rcases hx with hx | hx | hx
      · linarith [h1.1]
      · linarith [h1.2]
      · exact absurd hx h2

theorem bbTermOf_eq_mainTermSpec (E I : ℝ) : bbTermOf E I = mainTermSpec E I := by
  unfold bbTermOf mainTermSpec K Z A rho
  ring

theorem deltaOf_eq_deltaSpec (E I : ℝ) : deltaOf E I = deltaSpec E I := by
  unfold deltaOf deltaSpec
  rcases le_or_lt E 100 with h | h
  · rw [if_neg (not_lt.mpr h), if_pos h]
  · rw [if_pos h, if_neg (not_le.mpr h)]

theorem shellOf_eq_shellSpec (E : ℝ) : shellOf E = shellSpec E := by
  unfold shellOf shellSpec K Z A rho
  rcases lt_or_le E 100 with h | h
  · rw [if_pos h, if_neg (not_le.mpr h)]
    ring
  · rw [if_neg (not_lt.mpr h), if_pos h]

theorem beta2_at_1000_pos : 0 < beta2Of 1000 := by
  norm_num [beta2Of, gammaOf, m_mu]

theorem beta2_at_1000_lt_one : beta2Of 1000 < 1 := by
  norm_num [beta2Of, gammaOf, m_mu]

theorem arg_at_1000_pos : 0 < argOf 1000 322 := by
  norm_num [argOf, TmaxOf, I_MeVOf, beta2Of, gammaOf, m_mu, m_e]

/-! ## Claim theorems about the evaluator -/

/-- C1: for every kinetic energy admissible to the evaluator (0 < beta2 < 1
and positive logarithm argument), the returned value equals the spec-side
main term minus the density correction minus the shell correction. -/
theorem C1_bethe_bloch_decomposition (E I : ℝ)
    (h0 : 0 < beta2Of E) (h1 : beta2Of E < 1) (h2 : 0 < argOf E I) :
    bethe_bloch_muon E I = some (mainTermSpec E I - deltaSpec E I - shellSpec E) := by
  unfold bethe_bloch_muon
  rw [if_neg (by push_neg; exact ⟨h0, h1⟩), if_neg (not_le.mpr h2),
    bbTermOf_eq_mainTermSpec, deltaOf_eq_deltaSpec, shellOf_eq_shellSpec]

/-- Witness for C1 at the concrete admissible energy 1000 MeV with the
default ionization potential 322 eV. -/
theorem C1_bethe_bloch_decomposition_witness :
    0 < beta2Of 1000 ∧ beta2Of 1000 < 1 ∧ 0 < argOf 1000 322 ∧
      bethe_bloch_muon 1000 322 =
        some (mainTermSpec 1000 322 - deltaSpec 1000 322 - shellSpec 1000) :=
  ⟨beta2_at_1000_pos, beta2_at_1000_lt_one, arg_at_1000_pos,
    C1_bethe_bloch_decomposition 1000 322 beta2_at_1000_pos beta2_at_1000_lt_one
      arg_at_1000_pos⟩

/-- C2: the evaluator returns the undefined marker exactly when beta2 is
non-positive, beta2 is at least one, or the logarithm argument is
non-positive; in every other case it returns a defined value. -/
theorem C2_undefined_iff (E I : ℝ) :
    bethe_bloch_muon E I = none ↔
      beta2Of E ≤ 0 ∨ 1 ≤ beta2Of E ∨ argOf E I ≤ 0 :=
  bethe_bloch_muon_eq_none_iff E I

/-- C9: for a non-negative energy and a positive ionization potential,
passing the first guard forces a positive maximal energy transfer and a
positive logarithm argument, so the second undefined branch is
unreachable. -/
theorem C9_second_guard_unreachable (E I : ℝ) (hE : 0 ≤ E) (hI : 0 < I)
    (h0 : 0 < beta2Of E) (h1 : beta2Of E < 1) :
    0 < TmaxOf E ∧ 0 < argOf E I ∧ bethe_bloch_muon E I ≠ none := by
  have hγ : 0 < gammaOf E := by
    unfold gammaOf m_mu
    exact div_pos (by linarith) (by norm_num)
  have hden : 0 < 1 + 2 * gammaOf E * m_e / m_mu + (m_e / m_mu) ^ 2 := by
    have hmid : 0 < 2 * gammaOf E * m_e / m_mu := by
      have h2 : (0:ℝ) < 2 * gammaOf E * m_e := by unfold m_e; nlinarith
      exact div_pos h2 (by unfold m_mu; norm_num)
    nlinarith [sq_nonneg (m_e / m_mu)]
  have hγ2 : 0 < (gammaOf E) ^ 2 := pow_pos hγ 2
  have hTnum : 0 < 2 * m_e * beta2Of E * (gammaOf E) ^ 2 := by
    unfold m_e
    nlinarith
  have hT : 0 < TmaxOf E := by
    unfold TmaxOf
    exact div_pos hTnum hden
  have hIM : 0 < (I_MeVOf I) ^ 2 := by
    have hpos : 0 < I_MeVOf I := by unfold I_MeVOf; nlinarith
    exact pow_pos hpos 2
  have harg : 0 < argOf E I := by
    unfold argOf
    exact div_pos (by nlinarith) hIM
  refine ⟨hT, harg, ?_⟩
  rw [Ne, bethe_bloch_muon_eq_none_iff]
  push_neg
  exact ⟨h0, h1, harg⟩

/-- Witness for C9 at the concrete energy 1000 MeV with ionization
potential 322 eV. -/
theorem C9_second_guard_unreachable_witness :
    (0:ℝ) ≤ 1000 ∧ (0:ℝ) < 322 ∧ 0 < beta2Of 1000 ∧ beta2Of 1000 < 1 ∧
      (0 < TmaxOf 1000 ∧ 0 < argOf 1000 322 ∧ bethe_bloch_muon 1000 322 ≠ none) :=
  ⟨by norm_num, by norm_num, beta2_at_1000_pos, beta2_at_1000_lt_one,
    C9_second_guard_unreachable 1000 322 (by norm_num) (by norm_num)
      beta2_at_1000_pos beta2_at_1000_lt_one⟩

/-! ## Sample lists, region restrictions and the minimum finder
(source lines 131-148) -/

noncomputable section

/-- Restriction of the samples to an inclusive energy band, modelling the
boolean mask pattern of the source. -/
def bandOf (samples : List (ℝ × ℝ)) (lo hi : ℝ) : List (ℝ × ℝ) :=
  samples.filter (fun s => lo ≤ s.1 ∧ s.1 ≤ hi)

/-- The declared minimum region of 100 to 5000 MeV, source line 131. -/
def minRegionOf (samples : List (ℝ × ℝ)) : List (ℝ × ℝ) :=
  bandOf samples 100 5000

/-- One comparison step of the argmin scan: keep the current best unless a
strictly smaller loss appears, so the first minimal value wins. -/
def pickMin (best s : ℝ × ℝ) : ℝ × ℝ := if s.2 < best.2 then s else best

/-- First-occurrence minimum by loss, modelling np.argmin followed by
indexing (source lines 145-147).  The `none` result models the ValueError
that np.argmin raises on an empty array. -/
def firstMinBy : List (ℝ × ℝ) → Option (ℝ × ℝ)
  | [] => none
  | s :: rest => some (rest.foldl pickMin s)

/-- The minimum finder of source lines 131-147: restrict to the minimum
region, then take the stable argmin of the losses. -/
def minFinder (samples : List (ℝ × ℝ)) : Option (ℝ × ℝ) :=
  firstMinBy (minRegionOf samples)

end

/-- The scan result splits its input as a prefix of strictly larger losses,
the result itself, and a suffix of losses at least as large: exactly the
first-occurrence argmin. -/
theorem foldl_pickMin_decomp (rest : List (ℝ × ℝ)) :
    ∀ s : ℝ × ℝ, ∃ l₁ l₂, s :: rest = l₁ ++ (rest.foldl pickMin s) :: l₂ ∧
      (∀ q ∈ l₁, (rest.foldl pickMin s).2 < q.2) ∧
      (∀ q ∈ l₂, (rest.foldl pickMin s).2 ≤ q.2) := by
  induction rest with
  | nil =>
    intro s
    exact ⟨[], [], rfl, by simp, by simp⟩
  | cons t rest ih =>
    intro s
    by_cases h : t.2 < s.2
    · have hfold : (t :: rest).foldl pickMin s = rest.foldl pickMin t := by
        rw [List.foldl_cons, show pickMin s t = t from by simp [pickMin, h]]
      rw [hfold]
      obtain ⟨l₁, l₂, hdec, hlt, hle⟩ := ih t
      have hpt : (rest.foldl pickMin t).2 ≤ t.2 := by
        cases l₁ with
        | nil =>
          have ht : t = rest.foldl pickMin t := by
            simpa using congrArg (fun l => l.head?) hdec
          rw [← ht]
        | cons u l₁x =>
          have hu : u = t := by
            simpa using (congrArg (fun l => l.head?) hdec).symm
          have hlt2 := hlt u (by simp)
          rw [hu] at hlt2
          exact hlt2.le
      refine ⟨s :: l₁, l₂, ?_, ?_, hle⟩
      · rw [List.cons_append, ← hdec]
      · intro q hq
        rcases List.mem_cons.mp hq with hq | hq
        · rw [hq]
          exact lt_of_le_of_lt hpt h
        · exact hlt q hq
    · have hfold : (t :: rest).foldl pickMin s = rest.foldl pickMin s := by
        rw [List.foldl_cons, show pickMin s t = s from by simp [pickMin, h]]
      rw [hfold]
      push_neg at h
      obtain ⟨l₁, l₂, hdec, hlt, hle⟩ := ih s
      cases l₁ with
      | nil =>
        have hs : s = rest.foldl pickMin s := by
          simpa using congrArg (fun l => l.head?) hdec
        have hl2 : rest = l₂ := by
          simpa using congrArg (fun l => l.tail) hdec
        refine ⟨[], t :: rest, ?_, by simp, ?_⟩
        · rw [← hs]
          rfl
        · intro q hq
          rcases List.mem_cons.mp hq with hq | hq
          · rw [hq, ← hs]
            exact h
          · exact hle q (hl2 ▸ hq)
      | cons u l₁x =>
        have hu : u = s := by
          simpa using (congrArg (fun l => l.head?) hdec).symm
        have htail : rest = l₁x ++ (rest.foldl pickMin s) :: l₂ := by
          simpa using congrArg (fun l => l.tail) hdec
        have hfs : (rest.foldl pickMin s).2 < s.2 := by
          have hlt2 := hlt u (by simp)
          rw [hu] at hlt2
          exact hlt2
        refine ⟨s :: t :: l₁x, l₂, ?_, ?_, hle⟩
        · rw [List.cons_append, List.cons_append, ← htail]
        · intro q hq
          rcases List.mem_cons.mp hq with hq | hq
          · rw [hq]
            exact hfs
          · rcases List.mem_cons.mp hq with hq2 | hq2
            · rw [hq2]
              exact lt_of_lt_of_le hfs h
            · exact hlt q (List.mem_cons_of_mem u hq2)

/-- C3 counterexample: a non-empty sample list whose single energy lies
outside the minimum region.  The restriction is empty, so the finder
produces no result at all (np.argmin raises), refuting the claim that
every non-empty sample list yields a reported minimum. -/
theorem C3_minFinder_counterexample :
    ([((1:ℝ), 5)] : List (ℝ × ℝ)) ≠ [] ∧
      minFinder [((1:ℝ), 5)] = none := by
  constructor
  · simp
  · norm_num [minFinder, minRegionOf, bandOf, List.filter, firstMinBy]

/-- C3 amended: for every sample list whose restriction to the minimum
region 100 to 5000 MeV is non-empty, the finder returns a sample of that
restriction whose loss is minimal, and among ties the first-occurring
one: every earlier restricted sample has a strictly larger loss and every
later one a loss at least as large. -/
theorem C3_minFinder_stable_argmin (samples : List (ℝ × ℝ))
    (h : minRegionOf samples ≠ []) :
    ∃ p l₁ l₂, minFinder samples = some p ∧
      minRegionOf samples = l₁ ++ p :: l₂ ∧
      (∀ q ∈ l₁, p.2 < q.2) ∧ (∀ q ∈ l₂, p.2 ≤ q.2) := by
  cases hr : minRegionOf samples with
  | nil => exact absurd hr h
  | cons s rest =>
    obtain ⟨l₁, l₂, hdec, hlt, hle⟩ := foldl_pickMin_decomp rest s
    refine ⟨rest.foldl pickMin s, l₁, l₂, ?_, ?_, hlt, hle⟩
    · unfold minFinder
      rw [hr]
      rfl
    · exact hdec

/-- Witness for the amended C3 at a concrete sample list with a tie: the
finder picks the first of the two tied minimal losses. -/
theorem C3_minFinder_stable_argmin_witness :
    minRegionOf [((150:ℝ), 3), (200, 2), (300, 2)] ≠ [] ∧
      (∃ p l₁ l₂, minFinder [((150:ℝ), 3), (200, 2), (300, 2)] = some p ∧
        minRegionOf [((150:ℝ), 3), (200, 2), (300, 2)] = l₁ ++ p :: l₂ ∧
        (∀ q ∈ l₁, p.2 < q.2) ∧ (∀ q ∈ l₂, p.2 ≤ q.2)) :=
  ⟨by intro hcon; norm_num [minRegionOf, bandOf, List.filter] at hcon
      exact List.cons_ne_nil _ _ hcon,
    C3_minFinder_stable_argmin _
      (by intro hcon; norm_num [minRegionOf, bandOf, List.filter] at hcon
          exact List.cons_ne_nil _ _ hcon)⟩

/-- C10: when no sample has energy inside the minimum region, the finder
yields no fallback result: the argmin of the empty restriction fails, so
the modelled result is `none` (the uncaught ValueError terminates the
run). -/
theorem C10_empty_region_aborts (samples : List (ℝ × ℝ))
    (h : ∀ s ∈ samples, ¬(100 ≤ s.1 ∧ s.1 ≤ 5000)) :
    minFinder samples = none := by
  have hempty : minRegionOf samples = [] := by
    unfold minRegionOf bandOf
    rw [List.filter_eq_nil_iff]
    intro a ha
    simpa using h a ha
  unfold minFinder
  rw [hempty]
  rfl

/-- Witness for C10 at a concrete sample list entirely below the minimum
region. -/
theorem C10_empty_region_aborts_witness :
    (∀ s ∈ ([((1:ℝ), 5)] : List (ℝ × ℝ)), ¬(100 ≤ s.1 ∧ s.1 ≤ 5000)) ∧
      minFinder [((1:ℝ), 5)] = none :=
  ⟨by norm_num, C10_empty_region_aborts _ (by norm_num)⟩

/-! ## Smooth-overlay interpolation inputs and guards
(source lines 77-86, 136-141, 166-171, 271-275) -/

noncomputable section

/-- Base-10 logarithm, modelling np.log10. -/
def log10 (x : ℝ) : ℝ := Real.logb 10 x

/-- Log-log transform of one sample. -/
def logPair (s : ℝ × ℝ) : ℝ × ℝ := (log10 s.1, log10 s.2)

/-- The relativistic region of at least 1000 MeV, source line 161. -/
def relRegionOf (samples : List (ℝ × ℝ)) : List (ℝ × ℝ) :=
  samples.filter (fun s => 1000 ≤ s.1)

/-- The zoom region of 200 to 2000 MeV, source line 267. -/
def zoomRegionOf (samples : List (ℝ × ℝ)) : List (ℝ × ℝ) :=
  bandOf samples 200 2000

/-- Data handed to the full-range cubic interpolant: every sample with both
coordinates log10-transformed (source lines 77-81). -/
def fullFitInput (samples : List (ℝ × ℝ)) : List (ℝ × ℝ) :=
  samples.map logPair

/-- Data handed to the minimum-region cubic interpolant: the raw restricted
pairs, with no transform (source line 138). -/
def interpMinInput (samples : List (ℝ × ℝ)) : List (ℝ × ℝ) :=
  minRegionOf samples

/-- Data handed to the relativistic-region cubic interpolant: the restricted
pairs, log10-transformed in both coordinates (source line 169). -/
def interpRelInput (samples : List (ℝ × ℝ)) : List (ℝ × ℝ) :=
  (relRegionOf samples).map logPair

/-- Data handed to the zoom-region cubic interpolant: the raw restricted
pairs, with no transform (source line 273). -/
def interpZoomInput (samples : List (ℝ × ℝ)) : List (ℝ × ℝ) :=
  zoomRegionOf samples

/-- Full-range overlay curve for an arbitrary interpolator f: evaluate f on
the log-log data at the log of the energy and exponentiate back
(source line 86). -/
def fullCurve (f : List (ℝ × ℝ) → ℝ → ℝ) (samples : List (ℝ × ℝ)) (E : ℝ) : ℝ :=
  (10:ℝ) ^ f (fullFitInput samples) (log10 E)

/-- Relativistic-region overlay curve: log-log fit recovered by
exponentiation (source line 170). -/
def relCurve (f : List (ℝ × ℝ) → ℝ → ℝ) (samples : List (ℝ × ℝ)) (E : ℝ) : ℝ :=
  (10:ℝ) ^ f (interpRelInput samples) (log10 E)

/-- Minimum-region overlay curve: direct evaluation with no exponentiation
(source line 139). -/
def minCurve (f : List (ℝ × ℝ) → ℝ → ℝ) (samples : List (ℝ × ℝ)) (E : ℝ) : ℝ :=
  f (interpMinInput samples) E

/-- Zoom-region overlay curve: direct evaluation with no exponentiation
(source line 274). -/
def zoomCurve (f : List (ℝ × ℝ) → ℝ → ℝ) (samples : List (ℝ × ℝ)) (E : ℝ) : ℝ :=
  f (interpZoomInput samples) E

/-- Guarded minimum-region interpolation step, source lines 136-140. -/
def interpMinStep (f : List (ℝ × ℝ) → ℝ → ℝ) (samples : List (ℝ × ℝ)) :
    Option (ℝ → ℝ) :=
  if 3 < (minRegionOf samples).length then some (minCurve f samples) else none

/-- Guarded relativistic-region interpolation step, source lines 166-171. -/
def interpRelStep (f : List (ℝ × ℝ) → ℝ → ℝ) (samples : List (ℝ × ℝ)) :
    Option (ℝ → ℝ) :=
  if 3 < (relRegionOf samples).length then some (relCurve f samples) else none

/-- Guarded zoom-region interpolation step, source lines 271-275. -/
def interpZoomStep (f : List (ℝ × ℝ) → ℝ → ℝ) (samples : List (ℝ × ℝ)) :
    Option (ℝ → ℝ) :=
  if 3 < (zoomRegionOf samples).length then some (zoomCurve f samples) else none

end

theorem log10_1000_eq_three : log10 1000 = 3 := by
  unfold log10
  rw [show (1000:ℝ) = 10 ^ (3:ℕ) by norm_num, Real.logb_pow,
    Real.logb_self_eq_one (by norm_num)]
  norm_num

/-- C4 counterexample: for the one-sample list at 1000 MeV, the data handed
to the minimum-region interpolant is the raw pair (1000, 1000) and not its
log-log transform (3, 3), so the minimum-region interpolation is not
performed in log-log space. -/
theorem C4_min_region_not_loglog_counterexample :
    interpMinInput [((1000:ℝ), 1000)] ≠
      (minRegionOf [((1000:ℝ), 1000)]).map logPair := by
  have hreg : minRegionOf [((1000:ℝ), 1000)] = [((1000:ℝ), 1000)] := by
    norm_num [minRegionOf, bandOf, List.filter]
  intro hcon
  rw [interpMinInput, hreg] at hcon
  norm_num [logPair, log10_1000_eq_three] at hcon

/-- C4 amended: the full-range and relativistic overlays interpolate in
log-log space and are recovered by exponentiation, while the
minimum-region and zoom overlays interpolate the raw restricted pairs
directly, with no log transform and no exponentiation. -/
theorem C4_interpolation_spaces (f : List (ℝ × ℝ) → ℝ → ℝ)
    (samples : List (ℝ × ℝ)) (E : ℝ) :
    fullFitInput samples = samples.map logPair ∧
    fullCurve f samples E = (10:ℝ) ^ f (samples.map logPair) (log10 E) ∧
    interpRelInput samples = (relRegionOf samples).map logPair ∧
    relCurve f samples E = (10:ℝ) ^ f ((relRegionOf samples).map logPair) (log10 E) ∧
    interpMinInput samples = minRegionOf samples ∧
    minCurve f samples E = f (minRegionOf samples) E ∧
    interpZoomInput samples = zoomRegionOf samples ∧
    zoomCurve f samples E = f (zoomRegionOf samples) E :=
  ⟨rfl, rfl, rfl, rfl, rfl, rfl, rfl, rfl⟩

/-- C8: each guarded regional interpolation produces a curve exactly when
its restricted sample list has at least 4 points, and is skipped with
fewer. -/
theorem C8_interp_guards (f : List (ℝ × ℝ) → ℝ → ℝ) (samples : List (ℝ × ℝ)) :
    (4 ≤ (minRegionOf samples).length → (interpMinStep f samples).isSome) ∧
    ((minRegionOf samples).length < 4 → interpMinStep f samples = none) ∧
    (4 ≤ (relRegionOf samples).length → (interpRelStep f samples).isSome) ∧
    ((relRegionOf samples).length < 4 → interpRelStep f samples = none) ∧
    (4 ≤ (zoomRegionOf samples).length → (interpZoomStep f samples).isSome) ∧
    ((zoomRegionOf samples).length < 4 → interpZoomStep f samples = none) := by
  unfold interpMinStep interpRelStep interpZoomStep
  refine ⟨?_, ?_, ?_, ?_, ?_, ?_⟩ <;> intro h
  · rw [if_pos (by omega)]
    rfl
  · rw [if_neg (by omega)]
  · rw [if_pos (by omega)]
    rfl
  · rw [if_neg (by omega)]
  · rw [if_pos (by omega)]
    rfl
  · rw [if_neg (by omega)]

/-- Demo sample list for the interpolation guards: four points in the
minimum region, none at or above 1000 MeV, three in the zoom region. -/
noncomputable def demoGuardSamples : List (ℝ × ℝ) :=
  [(150, 1), (200, 2), (300, 3), (400, 4)]

/-- Trivial interpolator standing in for the cubic spline. -/
noncomputable def demoInterpolator : List (ℝ × ℝ) → ℝ → ℝ := fun _ _ => 0

/-- Witness for C8 on the demo list: the minimum-region step runs, the
relativistic and zoom steps are skipped. -/
theorem C8_interp_guards_witness :
    4 ≤ (minRegionOf demoGuardSamples).length ∧
    (interpMinStep demoInterpolator demoGuardSamples).isSome ∧
    (relRegionOf demoGuardSamples).length < 4 ∧
    interpRelStep demoInterpolator demoGuardSamples = none ∧
    (zoomRegionOf demoGuardSamples).length < 4 ∧
    interpZoomStep demoInterpolator demoGuardSamples = none := by
  have hmin : 4 ≤ (minRegionOf demoGuardSamples).length := by
    norm_num [minRegionOf, bandOf, List.filter, demoGuardSamples]
  have hrel : (relRegionOf demoGuardSamples).length < 4 := by
    norm_num [relRegionOf, List.filter, demoGuardSamples]
  have hzoom : (zoomRegionOf demoGuardSamples).length < 4 := by
    norm_num [zoomRegionOf, bandOf, List.filter, demoGuardSamples]
  have h := C8_interp_guards demoInterpolator demoGuardSamples
  exact ⟨hmin, h.1 hmin, hrel, h.2.2.2.1 hrel, hzoom, h.2.2.2.2.2 hzoom⟩

/-! ## The theoretical curve loop (source lines 99-116) -/

noncomputable section

/-- One grid point of the theoretical curve: the try-except around the
model call (source lines 101-108) followed by the nan-and-positivity
filter of line 103.  The evaluator may throw (error), return nan
(ok none), or return a numeric loss. -/
def evalPoint (g : ℝ → Except Unit (Option ℝ)) (E : ℝ) : Option ℝ :=
  match g E with
  | Except.error _ => none
  | Except.ok none => none
  | Except.ok (some loss) => if 0 < loss then some loss else none

/-- The theory-curve loop, source lines 99-108: sequential append of the
per-point results. -/
def theoryLoss (g : ℝ → Except Unit (Option ℝ)) (grid : List ℝ) : List (Option ℝ) :=
  grid.foldl (fun acc E => acc ++ [evalPoint g E]) []

end

theorem theoryLoss_foldl_eq_map (g : ℝ → Except Unit (Option ℝ)) (grid : List ℝ) :
    ∀ acc : List (Option ℝ),
      grid.foldl (fun acc E => acc ++ [evalPoint g E]) acc =
        acc ++ grid.map (evalPoint g) := by
  induction grid with
  | nil =>
    intro acc
    simp
  | cons E grid ih =>
    intro acc
    rw [List.foldl_cons, ih]
    simp

/-- C7: the theory loop evaluates each grid point independently: the result
list is the pointwise map over the grid, it always has the same length as
the grid, and a point at which the evaluator throws becomes `none` without
affecting any other point. -/
theorem C7_theory_loss_pointwise (g : ℝ → Except Unit (Option ℝ)) (grid : List ℝ) :
    theoryLoss g grid = grid.map (evalPoint g) ∧
    (theoryLoss g grid).length = grid.length ∧
    (∀ E e, g E = Except.error e → evalPoint g E = none) := by
  have hmap : theoryLoss g grid = grid.map (evalPoint g) := by
    unfold theoryLoss
    simpa using theoryLoss_foldl_eq_map g grid []
  refine ⟨hmap, by rw [hmap]; simp, ?_⟩
  intro E e hE
  unfold evalPoint
  rw [hE]

/-- A model stand-in that throws at every point. -/
noncomputable def demoThrowModel : ℝ → Except Unit (Option ℝ) :=
  fun _ => Except.error ()

/-- Witness for C7 with a throwing model on a two-point grid: both points
are caught independently and become undefined, the loop still yields a
full-length list. -/
theorem C7_theory_loss_pointwise_witness :
    demoThrowModel 1 = Except.error () ∧
    evalPoint demoThrowModel 1 = none ∧
    theoryLoss demoThrowModel [1, 2] = [none, none] := by
  have h := C7_theory_loss_pointwise demoThrowModel [1, 2]
  refine ⟨rfl, h.2.2 1 () rfl, ?_⟩
  rw [h.1]
  rfl

/-! ## The regional power-law fitter (source lines 185-197 and 378-384) -/

noncomputable section

/-- Sum of the first coordinates of a data list. -/
def sumX (l : List (ℝ × ℝ)) : ℝ := (l.map Prod.fst).sum

/-- Sum of the second coordinates. -/
def sumY (l : List (ℝ × ℝ)) : ℝ := (l.map Prod.snd).sum

/-- Sum of the squared first coordinates. -/
def sumXX (l : List (ℝ × ℝ)) : ℝ := (l.map (fun s => s.1 ^ 2)).sum

/-- Sum of the coordinatewise products. -/
def sumXY (l : List (ℝ × ℝ)) : ℝ := (l.map (fun s => s.1 * s.2)).sum

/-- Sum of the squared second coordinates. -/
def sumYY (l : List (ℝ × ℝ)) : ℝ := (l.map (fun s => s.2 ^ 2)).sum

/-- Determinant of the degree-one normal equations. -/
def fitDet (l : List (ℝ × ℝ)) : ℝ := l.length * sumXX l - (sumX l) ^ 2

/-- Closed form of the degree-one least-squares fit returned by np.polyfit
with degree 1: slope and intercept. -/
def polyfit1 (l : List (ℝ × ℝ)) : ℝ × ℝ :=
  ((l.length * sumXY l - sumX l * sumY l) / fitDet l,
    (sumY l - (l.length * sumXY l - sumX l * sumY l) / fitDet l * sumX l) / l.length)

/-- Sum of squared residuals of the line with slope a and intercept b. -/
def ssr (l : List (ℝ × ℝ)) (a b : ℝ) : ℝ :=
  (l.map (fun s => (s.2 - (a * s.1 + b)) ^ 2)).sum

/-- Guarded regional power-law fit, source lines 185-197 and 378-384:
restrict to the band, skip when at most two points remain, otherwise fit
a line to the log-log transformed data. -/
def subRegionFit (samples : List (ℝ × ℝ)) (lo hi : ℝ) : Option (ℝ × ℝ) :=
  if 2 < (bandOf samples lo hi).length then
    some (polyfit1 ((bandOf samples lo hi).map logPair))
  else none

end

theorem ssr_expand (l : List (ℝ × ℝ)) (a b : ℝ) :
    ssr l a b = sumYY l - 2 * a * sumXY l - 2 * b * sumY l + a ^ 2 * sumXX l +
      2 * a * b * sumX l + l.length * b ^ 2 := by
  induction l with
  | nil =>
    simp [ssr, sumYY, sumXY, sumY, sumXX, sumX]
  | cons s l ih =>
    simp only [ssr, sumYY, sumXY, sumY, sumXX, sumX, List.map_cons, List.sum_cons,
      List.length_cons] at ih ⊢
    push_cast
    linear_combination ih

theorem polyfit1_normal_eqs (l : List (ℝ × ℝ)) (hd : fitDet l ≠ 0)
    (hn : (l.length : ℝ) ≠ 0) :
    (polyfit1 l).1 * sumXX l + (polyfit1 l).2 * sumX l = sumXY l ∧
    (polyfit1 l).1 * sumX l + l.length * (polyfit1 l).2 = sumY l := by
  have hd2 : (l.length : ℝ) * sumXX l - (sumX l) ^ 2 ≠ 0 := by
    unfold fitDet at hd
    exact hd
  unfold polyfit1 fitDet
  constructor
  · field_simp
    ring
  · field_simp
    ring

theorem polyfit1_optimal (l : List (ℝ × ℝ)) (hd : 0 < fitDet l)
    (hn : 0 < (l.length : ℝ)) :
    ∀ a b, ssr l (polyfit1 l).1 (polyfit1 l).2 ≤ ssr l a b := by
  intro a b
  obtain ⟨hne1, hne2⟩ := polyfit1_normal_eqs l (ne_of_gt hd) (ne_of_gt hn)
  have key : ssr l a b - ssr l (polyfit1 l).1 (polyfit1 l).2 =
      sumXX l * (a - (polyfit1 l).1) ^ 2 +
        2 * sumX l * (a - (polyfit1 l).1) * (b - (polyfit1 l).2) +
        l.length * (b - (polyfit1 l).2) ^ 2 := by
    rw [ssr_expand l a b, ssr_expand l (polyfit1 l).1 (polyfit1 l).2]
    linear_combination (2 * (a - (polyfit1 l).1)) * hne1 +
      (2 * (b - (polyfit1 l).2)) * hne2
  have hkey2 : (l.length : ℝ) *
      (sumXX l * (a - (polyfit1 l).1) ^ 2 +
        2 * sumX l * (a - (polyfit1 l).1) * (b - (polyfit1 l).2) +
        l.length * (b - (polyfit1 l).2) ^ 2) =
      fitDet l * (a - (polyfit1 l).1) ^ 2 +
        (sumX l * (a - (polyfit1 l).1) + l.length * (b - (polyfit1 l).2)) ^ 2 := by
    unfold fitDet
    ring
  have h1 : 0 ≤ fitDet l * (a - (polyfit1 l).1) ^ 2 :=
    mul_nonneg hd.le (sq_nonneg _)
  have h2 : 0 ≤ (sumX l * (a - (polyfit1 l).1) +
      (l.length : ℝ) * (b - (polyfit1 l).2)) ^ 2 := sq_nonneg _
  nlinarith [hkey2, h1, h2, hn, key]

/-- C5: the regional power-law fitter skips a band with fewer than three
samples; with more than two it returns the closed-form line fit of the
log-log transformed band, and when the normal equations are
non-degenerate that line minimizes the sum of squared residuals over all
lines. -/
theorem C5_sub_region_fit (samples : List (ℝ × ℝ)) (lo hi : ℝ) :
    ((bandOf samples lo hi).length < 3 → subRegionFit samples lo hi = none) ∧
    (2 < (bandOf samples lo hi).length →
      subRegionFit samples lo hi =
        some (polyfit1 ((bandOf samples lo hi).map logPair)) ∧
      (0 < fitDet ((bandOf samples lo hi).map logPair) →
        ∀ a b,
          ssr ((bandOf samples lo hi).map logPair)
              (polyfit1 ((bandOf samples lo hi).map logPair)).1
              (polyfit1 ((bandOf samples lo hi).map logPair)).2 ≤
            ssr ((bandOf samples lo hi).map logPair) a b)) := by
  constructor
  · intro h
    unfold subRegionFit
    rw [if_neg (by omega)]
  · intro h
    refine ⟨by unfold subRegionFit; rw [if_pos h], ?_⟩
    intro hdet a b
    have hn : 0 < (((bandOf samples lo hi).map logPair).length : ℝ) := by
      rw [List.length_map]
      exact_mod_cast Nat.pos_of_ne_zero (by omega)
    exact polyfit1_optimal _ hdet hn a b

theorem log10_10_eq_one : log10 10 = 1 := by
  unfold log10
  exact Real.logb_self_eq_one (by norm_num)

theorem log10_100_eq_two : log10 100 = 2 := by
  unfold log10
  rw [show (100:ℝ) = 10 ^ (2:ℕ) by norm_num, Real.logb_pow,
    Real.logb_self_eq_one (by norm_num)]
  norm_num

/-- Demo samples for the fitter: three points of a flat power law. -/
noncomputable def demoFitSamples : List (ℝ × ℝ) := [(10, 10), (100, 10), (1000, 10)]

/-- Witness for C5: on the demo band the fit is produced, the normal
equations are non-degenerate, and the fitted line beats the concrete
competitor line with slope 2 and intercept 3. -/
theorem C5_sub_region_fit_witness :
    2 < (bandOf demoFitSamples 1 2000).length ∧
    0 < fitDet ((bandOf demoFitSamples 1 2000).map logPair) ∧
    subRegionFit demoFitSamples 1 2000 =
      some (polyfit1 ((bandOf demoFitSamples 1 2000).map logPair)) ∧
    ssr ((bandOf demoFitSamples 1 2000).map logPair)
        (polyfit1 ((bandOf demoFitSamples 1 2000).map logPair)).1
        (polyfit1 ((bandOf demoFitSamples 1 2000).map logPair)).2 ≤
      ssr ((bandOf demoFitSamples 1 2000).map logPair) 2 3 := by
  have hband : bandOf demoFitSamples 1 2000 = demoFitSamples := by
    norm_num [bandOf, List.filter, demoFitSamples]
  have hlen : 2 < (bandOf demoFitSamples 1 2000).length := by
    rw [hband]
    norm_num [demoFitSamples]
  have hlp : demoFitSamples.map logPair = [(1, 1), (2, 1), (3, 1)] := by
    norm_num [demoFitSamples, logPair, log10_10_eq_one, log10_100_eq_two,
      log10_1000_eq_three]
  have hdet : 0 < fitDet ((bandOf demoFitSamples 1 2000).map logPair) := by
    rw [hband, hlp]
    norm_num [fitDet, sumXX, sumX]
  have h := C5_sub_region_fit demoFitSamples 1 2000
  exact ⟨hlen, hdet, (h.2 hlen).1, (h.2 hlen).2 hdet 2 3⟩

/-! ## Regional statistics reporters (source lines 334-361 and 441-461) -/

/-- One row of the detailed per-region report. -/
structure RegionReport where
  count : ℕ
  mean : ℝ
  std : ℝ
  low : ℝ
  high : ℝ
  factor : ℝ

noncomputable section

/-- Detailed regional statistics, source lines 346-361: with a positive
sample count in the inclusive band, report count, mean, population
standard deviation, minimum, maximum, and the ratio of the mean loss to
the global minimum loss; an empty band produces no row. -/
def regionStats (samples : List (ℝ × ℝ)) (lo hi minLoss : ℝ) : Option RegionReport :=
  match bandOf samples lo hi with
  | [] => none
  | s :: rest =>
    some ⟨(s :: rest).length,
      (s.2 :: rest.map Prod.snd).sum / (s.2 :: rest.map Prod.snd).length,
      Real.sqrt (((s.2 :: rest.map Prod.snd).map
          (fun x => (x - (s.2 :: rest.map Prod.snd).sum /
            (s.2 :: rest.map Prod.snd).length) ^ 2)).sum /
        (s.2 :: rest.map Prod.snd).length),
      (rest.map Prod.snd).foldl min s.2,
      (rest.map Prod.snd).foldl max s.2,
      (s.2 :: rest.map Prod.snd).sum / (s.2 :: rest.map Prod.snd).length / minLoss⟩

/-- Summary regional statistics, source lines 449-461: with more than one
sample in the band, report the mean loss and the ratio of the band LAST
loss to the global minimum loss; otherwise no row. -/
def regionSummary (samples : List (ℝ × ℝ)) (lo hi minLoss : ℝ) : Option (ℝ × ℝ) :=
  if 1 < (bandOf samples lo hi).length then
    some (((bandOf samples lo hi).map Prod.snd).sum / (bandOf samples lo hi).length,
      (((bandOf samples lo hi).map Prod.snd).getLast?.getD 0) / minLoss)
  else none

end

theorem foldl_min_mem (x : ℝ) (xs : List ℝ) : xs.foldl min x ∈ x :: xs := by
  induction xs generalizing x with
  | nil => simp
  | cons y ys ih =>
    rw [List.foldl_cons]
    rcases min_choice x y with h | h
    · rw [h]
      rcases List.mem_cons.mp (ih x) with hm | hm
      · rw [hm]
        exact List.mem_cons_self _ _
      · exact List.mem_cons_of_mem _ (List.mem_cons_of_mem _ hm)
    · rw [h]
      rcases List.mem_cons.mp (ih y) with hm | hm
      · rw [hm]
        exact List.mem_cons_of_mem _ (List.mem_cons_self _ _)
      · exact List.mem_cons_of_mem _ (List.mem_cons_of_mem _ hm)

theorem foldl_min_le (x : ℝ) (xs : List ℝ) : ∀ y ∈ x :: xs, xs.foldl min x ≤ y := by
  induction xs generalizing x with
  | nil =>
    intro y hy
    simp at hy
    simp [hy]
  | cons z zs ih =>
    intro y hy
    rw [List.foldl_cons]
    rcases List.mem_cons.mp hy with hy | hy
    · rw [hy]
      exact le_trans (ih (min x z) (min x z) (List.mem_cons_self _ _)) (min_le_left _ _)
    · rcases List.mem_cons.mp hy with hy | hy
      · rw [hy]
        exact le_trans (ih (min x z) (min x z) (List.mem_cons_self _ _)) (min_le_right _ _)
      · exact ih (min x z) y (List.mem_cons_of_mem _ hy)

theorem foldl_max_mem (x : ℝ) (xs : List ℝ) : xs.foldl max x ∈ x :: xs := by
  induction xs generalizing x with
  | nil => simp
  | cons y ys ih =>
    rw [List.foldl_cons]
    rcases max_choice x y with h | h
    · rw [h]
      rcases List.mem_cons.mp (ih x) with hm | hm
      · rw [hm]
        exact List.mem_cons_self _ _
      · exact List.mem_cons_of_mem _ (List.mem_cons_of_mem _ hm)
    · rw [h]
      rcases List.mem_cons.mp (ih y) with hm | hm
      · rw [hm]
        exact List.mem_cons_of_mem _ (List.mem_cons_self _ _)
      · exact List.mem_cons_of_mem _ (List.mem_cons_of_mem _ hm)

theorem foldl_max_ge (x : ℝ) (xs : List ℝ) : ∀ y ∈ x :: xs, y ≤ xs.foldl max x := by
  induction xs generalizing x with
  | nil =>
    intro y hy
    simp at hy
    simp [hy]
  | cons z zs ih =>
    intro y hy
    rw [List.foldl_cons]
    rcases List.mem_cons.mp hy with hy | hy
    · rw [hy]
      exact le_trans (le_max_left _ _) (ih (max x z) (max x z) (List.mem_cons_self _ _))
    · rcases List.mem_cons.mp hy with hy | hy
      · rw [hy]
        exact le_trans (le_max_right _ _) (ih (max x z) (max x z) (List.mem_cons_self _ _))
      · exact ih (max x z) y (List.mem_cons_of_mem _ hy)

/-- C6 counterexample: a named band holding exactly one sample produces no
row from the summary reporter, refuting the claim that only bands with
zero matching samples are skipped. -/
theorem C6_singleton_band_counterexample :
    bandOf [((50:ℝ), 2)] 1 100 ≠ [] ∧
      regionSummary [((50:ℝ), 2)] 1 100 1 = none := by
  have hb : bandOf [((50:ℝ), 2)] 1 100 = [((50:ℝ), 2)] := by
    norm_num [bandOf, List.filter]
  constructor
  · rw [hb]
    exact List.cons_ne_nil _ _
  · unfold regionSummary
    rw [hb]
    norm_num

/-- C6 amended: the detailed reporter emits, for every band with at least
one sample, the count, mean, population standard deviation, a genuine
minimum and maximum of the band losses, and the ratio of the band mean to
the global minimum loss, skipping only empty bands; the summary reporter
of the final section instead requires at least two samples and reports
the mean together with the ratio of the LAST band loss to the global
minimum. -/
theorem C6_region_reports (samples : List (ℝ × ℝ)) (lo hi minLoss : ℝ) :
    (bandOf samples lo hi = [] → regionStats samples lo hi minLoss = none) ∧
    (bandOf samples lo hi ≠ [] →
      ∃ st : RegionReport, regionStats samples lo hi minLoss = some st ∧
        st.count = (bandOf samples lo hi).length ∧
        st.mean = ((bandOf samples lo hi).map Prod.snd).sum /
          ((bandOf samples lo hi).map Prod.snd).length ∧
        st.std = Real.sqrt ((((bandOf samples lo hi).map Prod.snd).map
            (fun x => (x - st.mean) ^ 2)).sum /
          ((bandOf samples lo hi).map Prod.snd).length) ∧
        st.low ∈ (bandOf samples lo hi).map Prod.snd ∧
        (∀ y ∈ (bandOf samples lo hi).map Prod.snd, st.low ≤ y) ∧
        st.high ∈ (bandOf samples lo hi).map Prod.snd ∧
        (∀ y ∈ (bandOf samples lo hi).map Prod.snd, y ≤ st.high) ∧
        st.factor = st.mean / minLoss) ∧
    ((bandOf samples lo hi).length ≤ 1 → regionSummary samples lo hi minLoss = none) ∧
    (1 < (bandOf samples lo hi).length →
      regionSummary samples lo hi minLoss =
        some (((bandOf samples lo hi).map Prod.snd).sum / (bandOf samples lo hi).length,
          (((bandOf samples lo hi).map Prod.snd).getLast?.getD 0) / minLoss)) := by
  refine ⟨?_, ?_, ?_, ?_⟩
  · intro h
    unfold regionStats
    rw [h]
  · intro h
    cases hb : bandOf samples lo hi with
    | nil => exact absurd hb h
    | cons s rest =>
      refine ⟨_, by unfold regionStats; rw [hb], ?_, ?_, ?_, ?_, ?_, ?_, ?_, rfl⟩
      · rfl
      · rfl
      · rfl
      · exact foldl_min_mem s.2 (rest.map Prod.snd)
      · exact foldl_min_le s.2 (rest.map Prod.snd)
      · exact foldl_max_mem s.2 (rest.map Prod.snd)
      · exact foldl_max_ge s.2 (rest.map Prod.snd)
  · intro h
    unfold regionSummary
    rw [if_neg (by omega)]
  · intro h
    unfold regionSummary
    rw [if_pos h]

/-- Demo samples for the reporters: two points inside the band. -/
noncomputable def demoStatSamples : List (ℝ × ℝ) := [(50, 2), (60, 4)]

/-- Witness for the amended C6 on a two-sample band: the detailed reporter
produces a row and the summary reporter reports the mean and the
last-loss ratio. -/
theorem C6_region_reports_witness :
    bandOf demoStatSamples 1 100 ≠ [] ∧
    regionStats demoStatSamples 1 100 1 ≠ none ∧
    1 < (bandOf demoStatSamples 1 100).length ∧
    regionSummary demoStatSamples 1 100 1 =
      some (((bandOf demoStatSamples 1 100).map Prod.snd).sum /
          (bandOf demoStatSamples 1 100).length,
        (((bandOf demoStatSamples 1 100).map Prod.snd).getLast?.getD 0) / 1) := by
  have hb : bandOf demoStatSamples 1 100 = demoStatSamples := by
    norm_num [bandOf, List.filter, demoStatSamples]
  have hne : bandOf demoStatSamples 1 100 ≠ [] := by
    rw [hb]
    simp [demoStatSamples]
  have hlen : 1 < (bandOf demoStatSamples 1 100).length := by
    rw [hb]
    norm_num [demoStatSamples]
  have h := C6_region_reports demoStatSamples 1 100 1
  obtain ⟨st, hst, _⟩ := h.2.1 hne
  exact ⟨hne, by rw [hst]; simp, hlen, h.2.2.2 hlen⟩

end MuonAnalysis
